import Mathlib

set_option maxRecDepth 4000
set_option maxHeartbeats 1000000

/-!
Shallow embedding of the geohash core of `geo-util` (`src/index.ts`):
the `GeoCoordinate`/`GeoHash` classes, the codec (`hashString`,
`decodeGeohash`, `refine_interval`), the neighbor resolver
(`getNeighborAsHashString` with its `NEIGHBORS`/`BORDER` tables) and the
radius search (`countHashesUntilDistance`, `getAllHashStringsWithinRadius`).

Modelling conventions:
* JS numbers are modelled as `ℚ`.  All interval arithmetic of the codec is
  exact halving, so `ℚ` is a faithful model of the double-precision source
  for the precisions the claims quantify over.
* JS strings are `List Char`.  `String.prototype.indexOf` (which returns
  `-1` on failure and `0` when asked for the empty string) is modelled by
  `jsStrIndexOf`; out-of-range indexing `s[i]`, which yields `undefined`
  and stringifies to `"undefined"` under concatenation, is modelled by
  `jsStringAt`.
* The JS bitwise `&` (ToInt32 then two's-complement AND, so `-1 & m = m`)
  is modelled by `jsAnd`.
* The unbounded recursion of `getNeighborAsHashString` (which the source
  performs on the JS call stack) is modelled with explicit fuel; `none`
  means the computation did not finish (stack overflow / missing result).
* `GeoCoordinate.distanceTo` is floating-point transcendental code
  (`Math.sin`/`Math.cos`/`Math.acos`); it cannot be embedded exactly, so
  every radius-search definition is parametrised by an explicit
  `dist : GeoCoordinate → GeoCoordinate → ℚ` standing for it.  The code
  guarantees `dist x x = 0` (its early-return equality test) and
  `0 ≤ dist x y`; theorems about the search use only such properties or
  concrete instances of `dist`.

Definitions come first, lemmas and one theorem per verified claim after.
-/

structure GeoCoordinate where
  lat : ℚ
  long : ℚ
deriving DecidableEq, Repr

/-- JS `String.prototype.indexOf` helper: does `s` start with `pat`? -/
def jsStartsWith : List Char → List Char → Bool
  | _, [] => true
  | [], _ :: _ => false
  | a :: as, b :: bs => a == b && jsStartsWith as bs

/-- First index at which `pat` occurs in `s`, if any. -/
def jsStrFind (pat : List Char) : List Char → Option Nat
  | [] => if jsStartsWith [] pat then some 0 else none
  | s@(_ :: t) =>
    if jsStartsWith s pat then some 0 else (jsStrFind pat t).map (· + 1)

/-- JS `s.indexOf(pat)`: `-1` when absent, `0` when `pat` is empty. -/
def jsStrIndexOf (s pat : List Char) : Int :=
  match jsStrFind pat s with
  | some n => (n : Int)
  | none => -1

/-- JS `s[i]` as it behaves under string concatenation: a one-character
string in range, the text `"undefined"` out of range. -/
def jsStringAt (s : List Char) (i : Int) : List Char :=
  if 0 ≤ i ∧ i < (s.length : Int) then [s.getD i.toNat '?'] else "undefined".toList

/-- JS bitwise `&` restricted to a small nonnegative mask: both operands
are converted to 32-bit two's complement, so `-1 & m = m`. -/
def jsAnd (x : Int) (m : Nat) : Nat :=
  (x % (2 ^ 32 : Int)).toNat &&& m

/-- `BITS` constant of the `GeoHash` class. -/
def BITS : List Nat := [16, 8, 4, 2, 1]

/-- `BASE32` alphabet of the `GeoHash` class. -/
def BASE32 : List Char := "0123456789bcdefghjkmnpqrstuvwxyz".toList

/-- `refine_interval` of `GeoHash`: narrow to the upper half when
`cd & mask` is truthy, to the lower half otherwise. -/
def refine_interval (interval : ℚ × ℚ) (cd : Int) (mask : Nat) : ℚ × ℚ :=
  if jsAnd cd mask ≠ 0 then ((interval.1 + interval.2) / 2, interval.2)
  else (interval.1, (interval.1 + interval.2) / 2)

/-- Inner loop of `decodeGeohash`: apply the five mask tests of one
character code `cd`, alternating longitude/latitude tracks. -/
def decodeCharBits (cd : Int) : List Nat → Bool → ℚ × ℚ → ℚ × ℚ → Bool × (ℚ × ℚ) × (ℚ × ℚ)
  | [], is_even, lat, lon => (is_even, lat, lon)
  | mask :: rest, is_even, lat, lon =>
    if is_even then decodeCharBits cd rest false lat (refine_interval lon cd mask)
    else decodeCharBits cd rest true (refine_interval lat cd mask) lon

/-- Outer loop of `decodeGeohash`: fold the characters over the interval
state (the dead `lat_err`/`lon_err` locals of the source are omitted). -/
def decodeAux : List Char → Bool → ℚ × ℚ → ℚ × ℚ → (ℚ × ℚ) × (ℚ × ℚ)
  | [], _, lat, lon => (lat, lon)
  | c :: rest, is_even, lat, lon =>
    let cd := jsStrIndexOf BASE32 [c]
    let st := decodeCharBits cd BITS is_even lat lon
    decodeAux rest st.1 st.2.1 st.2.2

/-- `GeoHash.decodeGeohash`: returns, in source order,
`[new GeoCoordinate(lat[0], lon[0]), new GeoCoordinate(lat[1], lon[1]),
centroid]` — destructured by the constructor as
`[northWest, southEast, centroid]`. -/
def decodeGeohash (geohash : List Char) : GeoCoordinate × GeoCoordinate × GeoCoordinate :=
  let st := decodeAux geohash true (-90, 90) (-180, 180)
  (⟨st.1.1, st.2.1⟩, ⟨st.1.2, st.2.2⟩, ⟨(st.1.1 + st.1.2) / 2, (st.2.1 + st.2.2) / 2⟩)

/-- One iteration of the `hashString` while-loop body: decide one bit
(compare against the midpoint, OR `BITS[bit]` into `ch` when above) and
narrow the corresponding interval. -/
def bitStep (c : GeoCoordinate) (is_even : Bool) (bit ch : Nat) (lat lon : ℚ × ℚ) :
    Nat × (ℚ × ℚ) × (ℚ × ℚ) :=
  if is_even then
    let mid := (lon.1 + lon.2) / 2
    if c.long > mid then (ch ||| BITS.getD bit 0, lat, (mid, lon.2))
    else (ch, lat, (lon.1, mid))
  else
    let mid := (lat.1 + lat.2) / 2
    if c.lat > mid then (ch ||| BITS.getD bit 0, (mid, lat.2), lon)
    else (ch, (lat.1, mid), lon)

/-- The `hashString` while-loop (`while (geohash.length < precision)`),
with its mutable state (`is_even`, `bit`, `ch`, the two intervals and the
accumulated string) passed explicitly.  Every fifth bit appends
`BASE32[ch]` and resets `bit`/`ch`. -/
def hashStringAux (c : GeoCoordinate) (precision : Int) (is_even : Bool) (bit ch : Nat)
    (lat lon : ℚ × ℚ) (geohash : List Char) : List Char :=
  if h : (geohash.length : Int) < precision then
    let s := bitStep c is_even bit ch lat lon
    if hb : bit < 4 then
      hashStringAux c precision (!is_even) (bit + 1) s.1 s.2.1 s.2.2 geohash
    else
      hashStringAux c precision (!is_even) 0 0 s.2.1 s.2.2
        (geohash ++ jsStringAt BASE32 (s.1 : Int))
  else geohash
termination_by ((precision - geohash.length).toNat, 4 - bit)
decreasing_by
  · apply Prod.Lex.right
    omega
  · apply Prod.Lex.left
    have h9 : 1 ≤ (jsStringAt BASE32 ((bitStep c is_even bit ch lat lon).1 : Int)).length := by
      unfold jsStringAt
      split <;> simp
    simp only [List.length_append]
    omega

/-- `GeoHash.hashString` with its initial state. -/
def hashString (c : GeoCoordinate) (precision : Int) : List Char :=
  hashStringAux c precision true 0 0 (-90, 90) (-180, 180) []

/-- The fields the `GeoHash` constructor fills in. -/
structure GeoHash where
  coordinate : GeoCoordinate
  northWest : GeoCoordinate
  southEast : GeoCoordinate
  northEast : GeoCoordinate
  southWest : GeoCoordinate
  centroid : GeoCoordinate
  geohash : List Char
deriving DecidableEq, Repr

/-- The string branch of the `GeoHash` constructor:
`[northWest, southEast, centroid] = decodeGeohash()`, then
`northEast = (northWest.lat, southEast.long)`,
`southWest = (southEast.lat, northWest.long)`, `coordinate = centroid`. -/
def geoHashOfString (geohash : List Char) : GeoHash :=
  let d := decodeGeohash geohash
  { coordinate := d.2.2
    northWest := d.1
    southEast := d.2.1
    northEast := ⟨d.1.lat, d.2.1.long⟩
    southWest := ⟨d.2.1.lat, d.1.long⟩
    centroid := d.2.2
    geohash := geohash }

/-- The coordinate branch of the `GeoHash` constructor. -/
def geoHashOfCoordinate (c : GeoCoordinate) (precision : Int) : GeoHash :=
  let gh := hashString c precision
  let d := decodeGeohash gh
  { coordinate := c
    northWest := d.1
    southEast := d.2.1
    northEast := ⟨d.1.lat, d.2.1.long⟩
    southWest := ⟨d.2.1.lat, d.1.long⟩
    centroid := d.2.2
    geohash := gh }

/-- `GeoHash.getAllCoordinates`: `[northWest, northEast, southEast,
southWest, centroid]`. -/
def getAllCoordinates (g : GeoHash) : List GeoCoordinate :=
  [g.northWest, g.northEast, g.southEast, g.southWest, g.centroid]

/-- The four cardinal directions (the first four cases of the `switch` in
`getNeighborAsHashString`). -/
inductive CDir | n | s | e | w
deriving DecidableEq, Repr

/-- The `direction` parameter of `getNeighborAsHashString`: a cardinal
direction or one of the four diagonal compositions. -/
inductive Direction | card (d : CDir) | nw | ne | se | sw
deriving DecidableEq, Repr

/-- The `NEIGHBORS` table of the `GeoHash` class (`odd = true` selects the
`odd` row). -/
def NEIGHBORS : CDir → Bool → List Char
  | .e, false => "bc01fg45238967deuvhjyznpkmstqrwx".toList
  | .e, true => "p0r21436x8zb9dcf5h7kjnmqesgutwvy".toList
  | .w, false => "238967debc01fg45kmstqrwxuvhjyznp".toList
  | .w, true => "14365h7k9dcfesgujnmqp0r2twvyx8zb".toList
  | .n, false => "p0r21436x8zb9dcf5h7kjnmqesgutwvy".toList
  | .n, true => "bc01fg45238967deuvhjyznpkmstqrwx".toList
  | .s, false => "14365h7k9dcfesgujnmqp0r2twvyx8zb".toList
  | .s, true => "238967debc01fg45kmstqrwxuvhjyznp".toList

/-- The `BORDER` table of the `GeoHash` class. -/
def BORDER : CDir → Bool → List Char
  | .e, false => "bcfguvyz".toList
  | .e, true => "prxz".toList
  | .w, false => "0145hjnp".toList
  | .w, true => "028b".toList
  | .n, false => "prxz".toList
  | .n, true => "bcfguvyz".toList
  | .s, false => "028b".toList
  | .s, true => "0145hjnp".toList

/-- `GeoHash.getNeighborAsHashString`, with the source's unbounded
recursion made explicit by a fuel parameter: `none` models a computation
that never returns (the JS code overflows the call stack).  Mirrors the
source line by line: `lastChar = hash.slice(-1)` (a string, empty for the
empty hash), `evenness = hash.length % 2 ? 'odd' : 'even'`,
`base = hash.substr(0, hash.length - 1)`; a cardinal step recurses on
`base` when `BORDER[direction][evenness].indexOf(lastChar) != -1`
(JS `indexOf` of the empty string is `0`, so the empty hash always
recurses on itself), then appends
`BASE32[NEIGHBORS[dir][evenness].indexOf(lastChar)]`; diagonal steps
compose two cardinal steps. -/
def getNeighborAsHashString : Nat → Direction → List Char → Option (List Char)
  | 0, _, _ => none
  | fuel + 1, .card d, hash =>
    let lastChar := hash.drop (hash.length - 1)
    let evenness := hash.length % 2 == 1
    let base := hash.dropLast
    let parent :=
      if jsStrIndexOf (BORDER d evenness) lastChar ≠ -1 then
        getNeighborAsHashString fuel (.card d) base
      else some base
    parent.map (fun b => b ++ jsStringAt BASE32 (jsStrIndexOf (NEIGHBORS d evenness) lastChar))
  | fuel + 1, .nw, hash =>
    (getNeighborAsHashString fuel (.card .n) hash).bind
      (fun b => getNeighborAsHashString fuel (.card .w) b)
  | fuel + 1, .ne, hash =>
    (getNeighborAsHashString fuel (.card .n) hash).bind
      (fun b => getNeighborAsHashString fuel (.card .e) b)
  | fuel + 1, .se, hash =>
    (getNeighborAsHashString fuel (.card .s) hash).bind
      (fun b => getNeighborAsHashString fuel (.card .e) b)
  | fuel + 1, .sw, hash =>
    (getNeighborAsHashString fuel (.card .s) hash).bind
      (fun b => getNeighborAsHashString fuel (.card .w) b)

/-- The neighbor computation on the empty hash never terminates, in any
cardinal direction. -/
def neighborOfEmptyHashDiverges : Prop :=
  ∀ (fuel : Nat) (d : CDir), getNeighborAsHashString fuel (.card d) [] = none

/-- The final-character replacement of a cardinal neighbor step:
`BASE32[NEIGHBORS[dir][evenness].indexOf(lastChar)]` as a string. -/
def stepChar (d : CDir) (o : Bool) (lc : Char) : List Char :=
  jsStringAt BASE32 (jsStrIndexOf (NEIGHBORS d o) [lc])

/-- Replace every out-of-alphabet character by `'z'`. -/
def sanitize (c : Char) : Char :=
  if c ∈ BASE32 then c else 'z'

/-- Run `k` consecutive `bitStep`s of the `hashString` loop, returning the
accumulated character code, the parity flag, and the interval state. -/
def encSteps (c : GeoCoordinate) : Nat → Bool → Nat → Nat → ℚ × ℚ → ℚ × ℚ →
    Nat × Bool × (ℚ × ℚ) × (ℚ × ℚ)
  | 0, is_even, _, ch, lat, lon => (ch, is_even, lat, lon)
  | k + 1, is_even, bit, ch, lat, lon =>
    let s := bitStep c is_even bit ch lat lon
    encSteps c k (!is_even) (bit + 1) s.1 s.2.1 s.2.2

/-- Character-level reformulation of the `hashString` loop: each character
is the result of five `bitStep`s started at `bit = 0`, `ch = 0`. -/
def charEnc (c : GeoCoordinate) : Nat → Bool → ℚ × ℚ → ℚ × ℚ → List Char
  | 0, _, _, _ => []
  | n + 1, is_even, lat, lon =>
    let r := encSteps c 5 is_even 0 0 lat lon
    jsStringAt BASE32 (r.1 : Int) ++ charEnc c n r.2.1 r.2.2.1 r.2.2.2

/-- The coordinate lies inside both tracked intervals. -/
def inSquare (c : GeoCoordinate) (lat lon : ℚ × ℚ) : Prop :=
  lat.1 ≤ c.lat ∧ c.lat ≤ lat.2 ∧ lon.1 ≤ c.long ∧ c.long ≤ lon.2

/-- The five representative points of a block mapped to their distance
from `center` and filtered by the radius, as in
`currentBlock.getAllCoordinates().map(o => o.distanceTo(centroid)).filter(o => o <= distance).length`. -/
def pointsInScopeOf (dist : GeoCoordinate → GeoCoordinate → ℚ) (center : GeoCoordinate)
    (distance : ℚ) (block : GeoHash) : Nat :=
  (((getAllCoordinates block).map (fun o => dist o center)).filter
    (fun o => o ≤ distance)).length

/-- Loop of `countHashesUntilDistance` with state
(`hash`, `counter`, `pointsInScope`). -/
def countAux (dist : GeoCoordinate → GeoCoordinate → ℚ) (centroid : GeoCoordinate)
    (distance : ℚ) (d : CDir) (points : Nat) :
    Nat → List Char → Nat → Nat → Option Nat
  | 0, _, _, _ => none
  | fuel + 1, hash, counter, pointsInScope =>
    if pointsInScope ≥ points then
      match getNeighborAsHashString (hash.length + 1) (.card d) hash with
      | none => none
      | some hash2 =>
        countAux dist centroid distance d points fuel hash2 (counter + 1)
          (pointsInScopeOf dist centroid distance (geoHashOfString hash2))
    else some counter

/-- `GeoHash.countHashesUntilDistance`: step outward from the object's own
geohash until fewer than `points` of the stepped block's five points are
within `distance` of the object's centroid. -/
def countHashesUntilDistance (dist : GeoCoordinate → GeoCoordinate → ℚ) (self : GeoHash)
    (fuel : Nat) (distance : ℚ) (d : CDir) (points : Nat) : Option Nat :=
  countAux dist self.centroid distance d points fuel self.geohash 0 5

/-- The inner `westCounter` loop of `getAllHashStringsWithinRadius`: step
`currentWest` west and `currentEast` east, pushing both stepped blocks
each iteration. -/
def weLoop : Nat → List Char → List Char → Option (List GeoHash)
  | 0, _, _ => some []
  | k + 1, currentWest, currentEast =>
    match getNeighborAsHashString (currentWest.length + 1) (.card .w) currentWest,
        getNeighborAsHashString (currentEast.length + 1) (.card .e) currentEast with
    | some w2, some e2 =>
      (weLoop k w2 e2).map (fun rest => geoHashOfString w2 :: geoHashOfString e2 :: rest)
    | _, _ => none

/-- One row loop of `getAllHashStringsWithinRadius` (used once with `n`
for the northern rows and once with `s` for the southern rows — both
bounded by `searchNorth` in the source): push the row's cell, then the
west/east sweep, then step the row `vert`-ward. -/
def rowsLoop (vert : CDir) (searchWest : Nat) : Nat → List Char → Option (List GeoHash)
  | 0, _ => some []
  | k + 1, currentRow =>
    match weLoop searchWest currentRow currentRow with
    | none => none
    | some rowBlocks =>
      match getNeighborAsHashString (currentRow.length + 1) (.card vert) currentRow with
      | none => none
      | some next =>
        (rowsLoop vert searchWest k next).map
          (fun rest => geoHashOfString currentRow :: rowBlocks ++ rest)

/-- Candidate accumulation of `getAllHashStringsWithinRadius` (the
`hashes` array before the final filter).  Note `searchSouth` is computed,
exactly as in the source (line 322), and then never used: the southern
rows are bounded by `searchNorth` (line 346 of the source). -/
def radiusCandidates (dist : GeoCoordinate → GeoCoordinate → ℚ) (self : GeoHash)
    (fuel : Nat) (distance : ℚ) (points : Nat) : Option (List GeoHash) := do
  let searchNorth ← countHashesUntilDistance dist self fuel distance .n points
  let _searchSouth ← countHashesUntilDistance dist self fuel distance .s points
  let searchWest ← countHashesUntilDistance dist self fuel distance .w points
  let northPart ← rowsLoop .n searchWest searchNorth self.geohash
  let firstSouthRow ← getNeighborAsHashString (self.geohash.length + 1) (.card .s) self.geohash
  let southPart ← rowsLoop .s searchWest searchNorth firstSouthRow
  pure (northPart ++ southPart)

/-- `GeoHash.getAllHashStringsWithinRadius`: filter the candidates by
their point-in-range count against the center's centroid and return the
geohash strings. -/
def getAllHashStringsWithinRadius (dist : GeoCoordinate → GeoCoordinate → ℚ) (self : GeoHash)
    (fuel : Nat) (distance : ℚ) (points : Nat) : Option (List (List Char)) :=
  (radiusCandidates dist self fuel distance points).map (fun hashes =>
    (hashes.filter (fun o => pointsInScopeOf dist self.centroid distance o ≥ points)).map
      (fun o => o.geohash))

/-- Exact taxicab stand-in for the floating-point distance: zero on equal
coordinates, positive otherwise, as the source's `distanceTo`
guarantees. -/
def distFlat (p q : GeoCoordinate) : ℚ :=
  |p.lat - q.lat| + |p.long - q.long|

/-- A south-biased exact distance model (southern latitudes count half):
a legal instance of the `distanceTo` interface under which the computed
south extent differs from the north extent, as also happens for the
spherical formula away from the equator. -/
def distSkew (p q : GeoCoordinate) : ℚ :=
  (if p.lat < 0 then |p.lat - q.lat| / 2 else |p.lat - q.lat|) + |p.long - q.long|

/-! ## Lemmas and claim theorems -/

/-- JS `indexOf` of the empty string is `0` on any receiver. -/
lemma jsStrIndexOf_nil_pat (s : List Char) : jsStrIndexOf s [] = 0 := by
  cases s <;> rfl

/-- A one-character search that does not occur yields `-1`. -/
lemma jsStrFind_singleton_of_notMem {c : Char} :
    ∀ {s : List Char}, c ∉ s → jsStrFind [c] s = none := by
  intro s
  induction s with
  | nil => intro _; rfl
  | cons a t ih =>
    intro hmem
    have ha : (a == c) = false := by
      simp only [List.mem_cons, not_or] at hmem
      simp [Ne.symm hmem.1]
    simp [jsStrFind, jsStartsWith, ha, ih (by simp only [List.mem_cons, not_or] at hmem; exact hmem.2)]

lemma jsStrIndexOf_singleton_of_notMem {c : Char} {s : List Char} (hc : c ∉ s) :
    jsStrIndexOf s [c] = -1 := by
  simp [jsStrIndexOf, jsStrFind_singleton_of_notMem hc]

/-- Transfer membership through a `decide`-checked inclusion. -/
lemma sub_of_all {l m : List Char} (h : l.all (fun y => decide (y ∈ m)) = true)
    {x : Char} (hx : x ∈ l) : x ∈ m := by
  have := List.all_eq_true.mp h x hx
  simpa using this

lemma mem_BASE32_of_mem_BORDER (d : CDir) (o : Bool) {x : Char} (hx : x ∈ BORDER d o) :
    x ∈ BASE32 := by
  refine sub_of_all ?_ hx
  cases d <;> cases o <;> decide

lemma mem_BASE32_of_mem_NEIGHBORS (d : CDir) (o : Bool) {x : Char} (hx : x ∈ NEIGHBORS d o) :
    x ∈ BASE32 := by
  refine sub_of_all ?_ hx
  cases d <;> cases o <;> decide

/-- The neighbor recursion maps the empty hash to itself (JS
`"".indexOf("") == 0` makes the border test succeed), so no amount of
fuel produces a result: the source overflows the call stack. -/
lemma getNeighbor_nil : ∀ (f : Nat) (d : CDir),
    getNeighborAsHashString f (.card d) [] = none := by
  intro f
  induction f with
  | zero => intro d; rfl
  | succ n ih =>
    intro d
    simp [getNeighborAsHashString, jsStrIndexOf_nil_pat, ih]

/-- C3 counterexample: on the empty hash the border test always succeeds
(`indexOf("") == 0`) and `getNeighborAsHashString` recurses on itself, so
it is not a non-crashing base case: the computation diverges (modelled as
exhausting every fuel bound). -/
theorem claim_C3_counterexample : neighborOfEmptyHashDiverges :=
  fun f d => getNeighbor_nil f d

/-- C3 (amended): for every hash and cardinal direction, the recursion
depth is bounded by the hash length: any fuel beyond `length + 1` gives
the same answer as `length + 1` (in particular the result, terminating or
not, is decided within `length + 1` nested calls). -/
theorem claim_C3_amended : ∀ (fuel : Nat) (d : CDir) (h : List Char), h.length < fuel →
    getNeighborAsHashString fuel (.card d) h =
      getNeighborAsHashString (h.length + 1) (.card d) h := by
  intro fuel
  induction fuel with
  | zero => intro d h hf; exact absurd hf (Nat.not_lt_zero _)
  | succ f ih =>
    intro d h hf
    cases h with
    | nil => rw [getNeighbor_nil, getNeighbor_nil]
    | cons a t =>
      have hlen : (a :: t).dropLast.length = t.length := by simp
      have hfl : (a :: t).dropLast.length < f := by
        simp only [List.length_cons] at hf
        omega
      simp only [getNeighborAsHashString, List.length_cons]
      rw [ih d (a :: t).dropLast hfl, hlen]
      simp only [getNeighborAsHashString, hlen]

theorem claim_C3_amended_witness :
    (['s'].length < 3) ∧
      getNeighborAsHashString 3 (.card CDir.n) ['s'] =
        getNeighborAsHashString (['s'].length + 1) (.card CDir.n) ['s'] :=
  ⟨by decide, claim_C3_amended 3 CDir.n ['s'] (by decide)⟩

/-- For a non-empty list, `slice(-1)` (that is, `drop (length - 1)`) is the
singleton of the last element, and re-appending it to `dropLast` restores
the list. -/
lemma drop_pred_eq_getLast : ∀ (l : List Char) (c : Char), l.getLast? = some c →
    l.drop (l.length - 1) = [c] ∧ l.dropLast ++ [c] = l := by
  intro l
  induction l with
  | nil => intro c hc; simp at hc
  | cons a t ih =>
    intro c hc
    cases t with
    | nil =>
      simp only [List.getLast?_singleton, Option.some_inj] at hc
      subst hc
      exact ⟨rfl, rfl⟩
    | cons b u =>
      have hc2 : (b :: u).getLast? = some c := by
        rwa [List.getLast?_cons_cons] at hc
      obtain ⟨h1, h2⟩ := ih c hc2
      constructor
      · simpa [Nat.succ_sub_one] using h1
      · simpa using h2

/-- Table check backing the neighbor-inverse property: for every alphabet
character that is not on the relevant border, the north step produces a
single alphabet character that is not on the south border and whose south
step restores the original character; and symmetrically east/west. -/
lemma neighborInverseTable :
    ∀ o : Bool, ∀ lc ∈ BASE32,
      (lc ∉ BORDER .n o → (stepChar .n o lc).length = 1 ∧
        (∀ x ∈ stepChar .n o lc, x ∉ BORDER .s o) ∧
        (stepChar .n o lc).flatMap (fun x => stepChar .s o x) = [lc]) ∧
      (lc ∉ BORDER .e o → (stepChar .e o lc).length = 1 ∧
        (∀ x ∈ stepChar .e o lc, x ∉ BORDER .w o) ∧
        (stepChar .e o lc).flatMap (fun x => stepChar .w o x) = [lc]) := by
  decide

/-- A carry-free cardinal step in direction `d1` is undone by the opposite
direction `d2`, given the table facts for the last character. -/
lemma neighbor_inverse_step (d1 d2 : CDir) (h : List Char) (lc : Char)
    (hlast : h.getLast? = some lc)
    (hF : (stepChar d1 (h.length % 2 == 1) lc).length = 1 ∧
      (∀ x ∈ stepChar d1 (h.length % 2 == 1) lc, x ∉ BORDER d2 (h.length % 2 == 1)) ∧
      (stepChar d1 (h.length % 2 == 1) lc).flatMap
        (fun x => stepChar d2 (h.length % 2 == 1) x) = [lc])
    (hnb : lc ∉ BORDER d1 (h.length % 2 == 1)) :
    ∃ h2, getNeighborAsHashString (h.length + 1) (.card d1) h = some h2 ∧
      getNeighborAsHashString (h.length + 1) (.card d2) h2 = some h := by
  obtain ⟨hdrop, hsplit⟩ := drop_pred_eq_getLast h lc hlast
  obtain ⟨lc2, hlc2⟩ := List.length_eq_one.mp hF.1
  have hne : h ≠ [] := by
    intro hnil; rw [hnil] at hlast; simp at hlast
  have hlen1 : 1 ≤ h.length := by
    cases h with
    | nil => exact absurd rfl hne
    | cons a t => simp
  refine ⟨h.dropLast ++ [lc2], ?_, ?_⟩
  · simp only [getNeighborAsHashString, hdrop,
      jsStrIndexOf_singleton_of_notMem hnb]
    simp [stepChar] at hlc2
    simp [hlc2]
  · have hlen2 : (h.dropLast ++ [lc2]).length = h.length := by
      simp
      omega
    have hdrop2 : (h.dropLast ++ [lc2]).drop ((h.dropLast ++ [lc2]).length - 1) = [lc2] :=
      (drop_pred_eq_getLast _ lc2 (List.getLast?_concat _)).1
    have hmem2 : lc2 ∈ stepChar d1 (h.length % 2 == 1) lc := by
      rw [hlc2]; simp
    have hnb2 : lc2 ∉ BORDER d2 (h.length % 2 == 1) := hF.2.1 lc2 hmem2
    have hstep2 : stepChar d2 (h.length % 2 == 1) lc2 = [lc] := by
      have := hF.2.2
      rw [hlc2] at this
      simpa using this
    simp only [getNeighborAsHashString, hdrop2, hlen2,
      jsStrIndexOf_singleton_of_notMem hnb2]
    simp only [List.dropLast_concat]
    simp [stepChar] at hstep2
    simp [hstep2, hsplit]
    rw [jsStrIndexOf_singleton_of_notMem hnb2]
    exact ⟨h.dropLast, by simp, hsplit⟩

/-- C8: for a non-empty alphabet-valid hash whose cardinal step triggers
no carry (last character not in the relevant `BORDER` table), the north
step is undone by the south step, and the east step by the west step, at
the fuel bound that `claim_C3_amended`-style stability makes canonical. -/
theorem claim_C8_neighbor_inverse (h : List Char) (lc : Char)
    (hlast : h.getLast? = some lc) (hlc : lc ∈ BASE32) :
    (lc ∉ BORDER .n (h.length % 2 == 1) →
      ∃ h2, getNeighborAsHashString (h.length + 1) (.card .n) h = some h2 ∧
        getNeighborAsHashString (h.length + 1) (.card .s) h2 = some h) ∧
    (lc ∉ BORDER .e (h.length % 2 == 1) →
      ∃ h2, getNeighborAsHashString (h.length + 1) (.card .e) h = some h2 ∧
        getNeighborAsHashString (h.length + 1) (.card .w) h2 = some h) := by
  have hT := neighborInverseTable (h.length % 2 == 1) lc hlc
  exact ⟨fun hnb => neighbor_inverse_step .n .s h lc hlast (hT.1 hnb) hnb,
    fun hnb => neighbor_inverse_step .e .w h lc hlast (hT.2 hnb) hnb⟩

theorem claim_C8_neighbor_inverse_witness :
    (∃ h2, getNeighborAsHashString 2 (.card CDir.n) ['7'] = some h2 ∧
      getNeighborAsHashString 2 (.card CDir.s) h2 = some ['7']) ∧
    (∃ h2, getNeighborAsHashString 2 (.card CDir.e) ['7'] = some h2 ∧
      getNeighborAsHashString 2 (.card CDir.w) h2 = some ['7']) :=
  ⟨(claim_C8_neighbor_inverse ['7'] '7' (by decide) (by decide)).1 (by decide),
   (claim_C8_neighbor_inverse ['7'] '7' (by decide) (by decide)).2 (by decide)⟩

/-- An out-of-alphabet character decodes exactly like code 31 (`'z'`): its
`indexOf` is `-1`, and `-1 & mask` is `mask` for every mask, so every one
of its five bit decisions picks the upper half-interval. -/
lemma decodeCharBits_neg_one (e : Bool) (lat lon : ℚ × ℚ) :
    decodeCharBits (-1) BITS e lat lon = decodeCharBits 31 BITS e lat lon := by
  have m16 : jsAnd (-1) 16 ≠ 0 := by decide
  have m8 : jsAnd (-1) 8 ≠ 0 := by decide
  have m4 : jsAnd (-1) 4 ≠ 0 := by decide
  have m2 : jsAnd (-1) 2 ≠ 0 := by decide
  have m1 : jsAnd (-1) 1 ≠ 0 := by decide
  have n16 : jsAnd 31 16 ≠ 0 := by decide
  have n8 : jsAnd 31 8 ≠ 0 := by decide
  have n4 : jsAnd 31 4 ≠ 0 := by decide
  have n2 : jsAnd 31 2 ≠ 0 := by decide
  have n1 : jsAnd 31 1 ≠ 0 := by decide
  cases e <;>
    simp [BITS, decodeCharBits, refine_interval, m16, m8, m4, m2, m1, n16, n8, n4, n2, n1]

/-- C7 counterexample: neither decode nor neighbor lookup fails on an
out-of-alphabet character.  `decodeGeohash "a"` silently returns the cell
of `'z'` (all five upper halves), and the neighbor lookup of `"0a"`
returns the ordinary string `"0undefined"` (the JS `-1` index produces
`undefined`, which string concatenation stringifies); no
`InvalidHashCharacter` error exists anywhere in the code. -/
theorem claim_C7_counterexample :
    decodeGeohash ['a'] = (⟨45, 135⟩, ⟨90, 180⟩, ⟨67.5, 157.5⟩) ∧
    getNeighborAsHashString 3 (.card .n) ['0', 'a'] = some ('0' :: "undefined".toList) := by
  constructor
  · with_unfolding_all decide
  · decide

/-- C7 (amended): decode and neighbor lookup accept out-of-alphabet
characters without any error: decode treats the character exactly like
`'z'` (code 31), and a cardinal neighbor lookup whose last character is
out of the alphabet appends the text `"undefined"` to the unchanged
parent prefix. -/
theorem claim_C7_amended (b c0 : Char) (d : CDir) (hc : c0 ∉ BASE32) :
    decodeGeohash [b, c0] = decodeGeohash [b, 'z'] ∧
    getNeighborAsHashString 2 (.card d) [b, c0] = some (b :: "undefined".toList) := by
  constructor
  · have hz : jsStrIndexOf BASE32 ['z'] = 31 := by decide
    simp only [decodeGeohash, decodeAux, jsStrIndexOf_singleton_of_notMem hc, hz,
      decodeCharBits_neg_one]
  · have hb1 : c0 ∉ BORDER d false := fun hmem => hc (mem_BASE32_of_mem_BORDER d false hmem)
    have hn1 : c0 ∉ NEIGHBORS d false := fun hmem => hc (mem_BASE32_of_mem_NEIGHBORS d false hmem)
    simp [getNeighborAsHashString, jsStrIndexOf_singleton_of_notMem hb1,
      jsStrIndexOf_singleton_of_notMem hn1, jsStringAt]

theorem claim_C7_amended_witness :
    (('a' ∈ BASE32) → False) ∧
    (decodeGeohash ['0', 'a'] = decodeGeohash ['0', 'z'] ∧
      getNeighborAsHashString 2 (.card CDir.n) ['0', 'a'] = some ('0' :: "undefined".toList)) :=
  ⟨by decide, claim_C7_amended '0' 'a' CDir.n (by decide)⟩

lemma decodeAux_map_sanitize : ∀ (gh : List Char) (e : Bool) (lat lon : ℚ × ℚ),
    decodeAux (gh.map sanitize) e lat lon = decodeAux gh e lat lon := by
  intro gh
  induction gh with
  | nil => intro e lat lon; rfl
  | cons c rest ih =>
    intro e lat lon
    by_cases hc : c ∈ BASE32
    · simp only [List.map_cons, sanitize, if_pos hc, decodeAux, ih]
    · have hz : jsStrIndexOf BASE32 ['z'] = 31 := by decide
      simp only [List.map_cons, sanitize, if_neg hc, decodeAux,
        jsStrIndexOf_singleton_of_notMem hc, hz, decodeCharBits_neg_one, ih]

/-- C9: decoding any string gives exactly the same bounding box and
centroid as decoding the string with every non-alphabet character
replaced by `'z'`: the `-1` of a failed `indexOf` has every mask bit set
under the JS bitwise AND, identically to code 31. -/
theorem claim_C9_invalid_char_decodes_as_z (gh : List Char) :
    decodeGeohash (gh.map sanitize) = decodeGeohash gh := by
  simp only [decodeGeohash, decodeAux_map_sanitize]

/-- C10: constructing a `GeoHash` from the empty string succeeds (the
embedding is total, like the source, which runs zero loop iterations) and
yields the full globe: the field named `northWest` is `(-90, -180)`, the
field named `southEast` is `(90, 180)`, the centroid is `(0, 0)`. -/
theorem claim_C10_empty_hash_full_globe :
    (geoHashOfString []).northWest = ⟨-90, -180⟩ ∧
    (geoHashOfString []).southEast = ⟨90, 180⟩ ∧
    (geoHashOfString []).centroid = ⟨0, 0⟩ := by
  with_unfolding_all decide

/-- C2 evaluation: decode assigns the south-west corner of the box to the
field named `northWest` and the north-east corner to `southEast`; on the
hash `"s"` (cell latitude 0..45, longitude 0..45) this gives
`northWest.lat = 0 < 45 = southEast.lat`, contradicting the claimed
invariant `northWest.latitude ≥ southEast.latitude` (and the repository's
own test expectations for `"dqcjqcps"`). -/
theorem claim_C2_corner_fields_swapped :
    (geoHashOfString ['s']).northWest = ⟨0, 0⟩ ∧
    (geoHashOfString ['s']).southEast = ⟨45, 45⟩ ∧
    ¬ (geoHashOfString ['s']).northWest.lat ≥ (geoHashOfString ['s']).southEast.lat := by
  with_unfolding_all decide

/-- C6 counterexample: encode does not fail for non-positive precision —
the while-loop guard `geohash.length < precision` is false immediately
and the empty string is returned, with no `InvalidPrecision` error (the
embedding, like the source, is total). -/
theorem claim_C6_counterexample :
    hashString ⟨1, 2⟩ 0 = [] ∧ hashString ⟨1, 2⟩ (-7) = [] := by
  constructor <;> (unfold hashString hashStringAux; rw [dif_neg (by decide)])

/-- C6 (amended): for every coordinate and every precision ≤ 0,
`hashString` returns the empty string (degenerate success, no error). -/
theorem claim_C6_amended (c : GeoCoordinate) (p : Int) (hp : p ≤ 0) :
    hashString c p = [] := by
  have hcond : ¬ (((([] : List Char).length) : Int) < p) := by
    simp only [List.length_nil, Nat.cast_zero]
    omega
  unfold hashString hashStringAux
  rw [dif_neg hcond]

theorem claim_C6_amended_witness :
    ((0 : Int) ≤ 0) ∧ hashString ⟨3, 4⟩ 0 = [] :=
  ⟨by decide, claim_C6_amended ⟨3, 4⟩ 0 (by decide)⟩

lemma hashStringAux_step (c : GeoCoordinate) (p : Int) (e : Bool) (bit ch : Nat)
    (lat lon : ℚ × ℚ) (gh : List Char) (h : (gh.length : Int) < p) (hb : bit < 4) :
    hashStringAux c p e bit ch lat lon gh =
      hashStringAux c p (!e) (bit + 1) (bitStep c e bit ch lat lon).1
        (bitStep c e bit ch lat lon).2.1 (bitStep c e bit ch lat lon).2.2 gh := by
  rw [hashStringAux.eq_def, dif_pos h]
  dsimp only
  rw [dif_pos hb]

lemma hashStringAux_flush (c : GeoCoordinate) (p : Int) (e : Bool) (bit ch : Nat)
    (lat lon : ℚ × ℚ) (gh : List Char) (h : (gh.length : Int) < p) (hb : ¬ bit < 4) :
    hashStringAux c p e bit ch lat lon gh =
      hashStringAux c p (!e) 0 0 (bitStep c e bit ch lat lon).2.1
        (bitStep c e bit ch lat lon).2.2
        (gh ++ jsStringAt BASE32 ((bitStep c e bit ch lat lon).1 : Int)) := by
  rw [hashStringAux.eq_def, dif_pos h]
  dsimp only
  rw [dif_neg hb]

/-- Unfolding one whole character (the remaining `k + 1` bit-steps of the
current character, `bit + k = 4`) of the `hashString` loop. -/
lemma hashStringAux_chunk (c : GeoCoordinate) (p : Int) :
    ∀ (k bit : Nat), bit + k = 4 → ∀ (e : Bool) (ch : Nat) (lat lon : ℚ × ℚ) (gh : List Char),
      (gh.length : Int) < p →
      hashStringAux c p e bit ch lat lon gh =
        hashStringAux c p (encSteps c (k + 1) e bit ch lat lon).2.1 0 0
          (encSteps c (k + 1) e bit ch lat lon).2.2.1
          (encSteps c (k + 1) e bit ch lat lon).2.2.2
          (gh ++ jsStringAt BASE32 ((encSteps c (k + 1) e bit ch lat lon).1 : Int)) := by
  intro k
  induction k with
  | zero =>
    intro bit hbit e ch lat lon gh h
    have hb4 : bit = 4 := by omega
    subst hb4
    rw [hashStringAux_flush c p e 4 ch lat lon gh h (by omega)]
    simp only [encSteps]
  | succ m ih =>
    intro bit hbit e ch lat lon gh h
    rw [hashStringAux_step c p e bit ch lat lon gh h (by omega)]
    rw [ih (bit + 1) (by omega) (!e) (bitStep c e bit ch lat lon).1 (bitStep c e bit ch lat lon).2.1
      (bitStep c e bit ch lat lon).2.2 gh h]
    simp only [encSteps]

lemma BITS_getD_lt (bit : Nat) : BITS.getD bit 0 < 32 := by
  match bit with
  | 0 | 1 | 2 | 3 | 4 => decide
  | n + 5 =>
    rw [List.getD_eq_default]
    · decide
    · simp [BITS]

lemma bitStep_fst_lt (c : GeoCoordinate) (e : Bool) (bit ch : Nat) (lat lon : ℚ × ℚ)
    (h : ch < 32) : (bitStep c e bit ch lat lon).1 < 32 := by
  have hb := BITS_getD_lt bit
  unfold bitStep
  dsimp only
  split_ifs <;> first
    | exact (show ch ||| BITS.getD bit 0 < 2 ^ 5 from Nat.or_lt_two_pow h hb)
    | exact h

lemma encSteps_fst_lt (c : GeoCoordinate) :
    ∀ (k : Nat) (e : Bool) (bit ch : Nat) (lat lon : ℚ × ℚ), ch < 32 →
      (encSteps c k e bit ch lat lon).1 < 32 := by
  intro k
  induction k with
  | zero => intro e bit ch lat lon h; exact h
  | succ m ih =>
    intro e bit ch lat lon h
    simp only [encSteps]
    exact ih (!e) (bit + 1) _ _ _ (bitStep_fst_lt c e bit ch lat lon h)

lemma jsStringAt_base32 (v : Nat) (hv : v < 32) :
    jsStringAt BASE32 (v : Int) = [BASE32.getD v '?'] := by
  have hl : ((BASE32.length : Nat) : Int) = 32 := by decide
  have hv2 : (v : Int) < 32 := by exact_mod_cast hv
  unfold jsStringAt
  rw [if_pos ⟨Int.natCast_nonneg v, by rw [hl]; exact hv2⟩, Int.toNat_natCast]

/-- `hashStringAux` from a character boundary produces exactly the
character-level encoding of the remaining `(p - geohash.length)`
characters. -/
lemma hashStringAux_eq_charEnc (c : GeoCoordinate) (p : Int) :
    ∀ (n : Nat) (gh : List Char), (p - gh.length).toNat = n → ∀ (e : Bool) (lat lon : ℚ × ℚ),
      hashStringAux c p e 0 0 lat lon gh = gh ++ charEnc c n e lat lon := by
  intro n
  induction n using Nat.strong_induction_on with
  | _ n ih =>
    intro gh hn e lat lon
    cases n with
    | zero =>
      have hnp : ¬ ((gh.length : Int) < p) := by omega
      rw [hashStringAux.eq_def, dif_neg hnp]
      simp [charEnc]
    | succ m =>
      have hlt : (gh.length : Int) < p := by omega
      rw [hashStringAux_chunk c p 4 0 (by omega) e 0 lat lon gh hlt]
      have hch : (encSteps c (4 + 1) e 0 0 lat lon).1 < 32 :=
        encSteps_fst_lt c (4 + 1) e 0 0 lat lon (by decide)
      rw [jsStringAt_base32 _ hch]
      have hlen : ((gh ++ [BASE32.getD (encSteps c (4 + 1) e 0 0 lat lon).1 '?']).length : Int)
          = gh.length + 1 := by
        simp
      rw [ih m (by omega) (gh ++ [BASE32.getD (encSteps c (4 + 1) e 0 0 lat lon).1 '?'])
        (by rw [hlen]; omega) (encSteps c (4 + 1) e 0 0 lat lon).2.1
        (encSteps c (4 + 1) e 0 0 lat lon).2.2.1 (encSteps c (4 + 1) e 0 0 lat lon).2.2.2]
      show _ = gh ++ charEnc c (m + 1) e lat lon
      simp only [charEnc, show (5 : Nat) = 4 + 1 from rfl]
      rw [jsStringAt_base32 _ hch]
      simp

lemma hashString_eq_charEnc (c : GeoCoordinate) (p : Int) :
    hashString c p = charEnc c (p.toNat) true (-90, 90) (-180, 180) := by
  unfold hashString
  rw [hashStringAux_eq_charEnc c p p.toNat [] (by simp) true (-90, 90) (-180, 180)]
  simp

/-- `BASE32.indexOf(BASE32[v]) = v` for every 5-bit code. -/
lemma jsStrIndexOf_base32_getD :
    ∀ v : Nat, v < 32 → jsStrIndexOf BASE32 [BASE32.getD v '?'] = (v : Int) := by
  decide

lemma bitsGetD_pow : ∀ m : Nat, m < 5 → BITS.getD (4 - m) 0 = 2 ^ m := by decide

lemma bitsDrop_pow : ∀ m : Nat, m < 5 → BITS.drop (4 - m) = 2 ^ m :: BITS.drop (4 - m + 1) := by
  decide

/-- `encSteps` only ever ORs masks `2 ^ (k - 1), …, 2 ^ 0` into the
accumulator when `k` steps remain, so higher bits are unchanged. -/
lemma encSteps_testBit (c : GeoCoordinate) : ∀ (k bit : Nat), bit + k = 5 →
    ∀ (e : Bool) (ch : Nat) (lat lon : ℚ × ℚ) (j : Nat), k ≤ j →
      ((encSteps c k e bit ch lat lon).1).testBit j = ch.testBit j := by
  intro k
  induction k with
  | zero => intro bit hb e ch lat lon j hj; rfl
  | succ m ih =>
    intro bit hb e ch lat lon j hj
    have hm : BITS.getD bit 0 = 2 ^ m := by
      rw [show bit = 4 - m by omega]; exact bitsGetD_pow m (by omega)
    simp only [encSteps]
    rw [ih (bit + 1) (by omega) (!e) _ _ _ j (by omega)]
    unfold bitStep
    dsimp only
    rw [hm]
    split_ifs <;>
      simp [Nat.testBit_or, Nat.testBit_two_pow_of_ne (show m ≠ j by omega)]

/-- For operands below `2 ^ 32`, the JS bitwise AND is the ordinary
`Nat` AND. -/
lemma jsAnd_small (x m : Nat) (hx : x < 2 ^ 32) : jsAnd (x : Int) m = x &&& m := by
  unfold jsAnd
  congr 1
  rw [Int.emod_eq_of_lt (Int.natCast_nonneg x) (by exact_mod_cast hx)]
  exact Int.toNat_natCast x

/-- Decode replays the encoder: starting from any character-boundary
state, feeding the final accumulated character code through the remaining
mask tests of `decodeCharBits` reproduces the parity flag and interval
state that the remaining `bitStep`s compute. -/
lemma decodeCharBits_encSteps_aux (c : GeoCoordinate) : ∀ (k bit : Nat), bit + k = 5 →
    ∀ (e : Bool) (ch : Nat) (lat lon : ℚ × ℚ), ch < 32 →
      (∀ i, i < k → ch.testBit i = false) →
      decodeCharBits ((encSteps c k e bit ch lat lon).1 : Int) (BITS.drop bit) e lat lon =
        (encSteps c k e bit ch lat lon).2 := by
  intro k
  induction k with
  | zero =>
    intro bit hb e ch lat lon hch hbits
    rw [show bit = 5 by omega]
    rfl
  | succ m ih =>
    intro bit hb e ch lat lon hch hbits
    have hm : BITS.getD bit 0 = 2 ^ m := by
      rw [show bit = 4 - m by omega]; exact bitsGetD_pow m (by omega)
    have hdrop : BITS.drop bit = 2 ^ m :: BITS.drop (bit + 1) := by
      rw [show bit = 4 - m by omega]
      exact bitsDrop_pow m (by omega)
    have hchm : ch.testBit m = false := hbits m (by omega)
    have hcd_lt : (encSteps c (m + 1) e bit ch lat lon).1 < 32 :=
      encSteps_fst_lt c (m + 1) e bit ch lat lon hch
    have hcd32 : (encSteps c (m + 1) e bit ch lat lon).1 < 2 ^ 32 := by
      calc (encSteps c (m + 1) e bit ch lat lon).1 < 32 := hcd_lt
        _ < 2 ^ 32 := by norm_num
    have hfinal : (encSteps c (m + 1) e bit ch lat lon).1.testBit m
        = (bitStep c e bit ch lat lon).1.testBit m := by
      simp only [encSteps]
      exact encSteps_testBit c m (bit + 1) (by omega) (!e) _ _ _ m (le_refl m)
    have hstep : encSteps c (m + 1) e bit ch lat lon
        = encSteps c m (!e) (bit + 1) (bitStep c e bit ch lat lon).1
            (bitStep c e bit ch lat lon).2.1 (bitStep c e bit ch lat lon).2.2 := by
      simp only [encSteps]
    have hih : ∀ (e' : Bool) (lat' lon' : ℚ × ℚ),
        decodeCharBits ((encSteps c m (!e) (bit + 1) (bitStep c e bit ch lat lon).1
            (bitStep c e bit ch lat lon).2.1 (bitStep c e bit ch lat lon).2.2).1 : Int)
          (BITS.drop (bit + 1)) (!e) (bitStep c e bit ch lat lon).2.1
          (bitStep c e bit ch lat lon).2.2
        = (encSteps c m (!e) (bit + 1) (bitStep c e bit ch lat lon).1
            (bitStep c e bit ch lat lon).2.1 (bitStep c e bit ch lat lon).2.2).2 := by
      intro e' lat' lon'
      refine ih (bit + 1) (by omega) (!e) (bitStep c e bit ch lat lon).1
        (bitStep c e bit ch lat lon).2.1 (bitStep c e bit ch lat lon).2.2
        (bitStep_fst_lt c e bit ch lat lon hch) ?_
      intro i hi
      unfold bitStep
      dsimp only
      rw [hm]
      split_ifs <;>
        simp [Nat.testBit_or, hbits i (by omega),
          Nat.testBit_two_pow_of_ne (show m ≠ i by omega)]
    rw [hdrop]
    cases e with
    | true =>
      by_cases hcmp : c.long > (lon.1 + lon.2) / 2
      · have hs : bitStep c true bit ch lat lon
            = (ch ||| 2 ^ m, lat, ((lon.1 + lon.2) / 2, lon.2)) := by
          unfold bitStep; rw [hm]; simp [hcmp]
        have hb1 : (encSteps c (m + 1) true bit ch lat lon).1.testBit m = true := by
          rw [hfinal, hs]
          simp [Nat.testBit_or, hchm, Nat.testBit_two_pow_self]
        have hAnd : jsAnd ((encSteps c (m + 1) true bit ch lat lon).1 : Int) (2 ^ m) ≠ 0 := by
          rw [jsAnd_small _ _ hcd32, Nat.and_two_pow, hb1]
          simp
        simp only [decodeCharBits, if_pos trivial, refine_interval, if_pos hAnd]
        rw [hstep, hs]
        have := hih true lat lon
        rw [hs] at this
        exact this
      · have hs : bitStep c true bit ch lat lon
            = (ch, lat, (lon.1, (lon.1 + lon.2) / 2)) := by
          unfold bitStep; simp [hcmp]
        have hb1 : (encSteps c (m + 1) true bit ch lat lon).1.testBit m = false := by
          rw [hfinal, hs]; exact hchm
        have hAnd : ¬ jsAnd ((encSteps c (m + 1) true bit ch lat lon).1 : Int) (2 ^ m) ≠ 0 := by
          rw [jsAnd_small _ _ hcd32, Nat.and_two_pow, hb1]
          simp
        simp only [decodeCharBits, refine_interval, if_neg hAnd]
        rw [hstep, hs]
        have := hih true lat lon
        rw [hs] at this
        exact this
    | false =>
      by_cases hcmp : c.lat > (lat.1 + lat.2) / 2
      · have hs : bitStep c false bit ch lat lon
            = (ch ||| 2 ^ m, ((lat.1 + lat.2) / 2, lat.2), lon) := by
          unfold bitStep; rw [hm]; simp [hcmp]
        have hb1 : (encSteps c (m + 1) false bit ch lat lon).1.testBit m = true := by
          rw [hfinal, hs]
          simp [Nat.testBit_or, hchm, Nat.testBit_two_pow_self]
        have hAnd : jsAnd ((encSteps c (m + 1) false bit ch lat lon).1 : Int) (2 ^ m) ≠ 0 := by
          rw [jsAnd_small _ _ hcd32, Nat.and_two_pow, hb1]
          simp
        simp only [decodeCharBits, refine_interval, if_pos hAnd]
        rw [hstep, hs]
        have := hih false lat lon
        rw [hs] at this
        exact this
      · have hs : bitStep c false bit ch lat lon
            = (ch, (lat.1, (lat.1 + lat.2) / 2), lon) := by
          unfold bitStep; simp [hcmp]
        have hb1 : (encSteps c (m + 1) false bit ch lat lon).1.testBit m = false := by
          rw [hfinal, hs]; exact hchm
        have hAnd : ¬ jsAnd ((encSteps c (m + 1) false bit ch lat lon).1 : Int) (2 ^ m) ≠ 0 := by
          rw [jsAnd_small _ _ hcd32, Nat.and_two_pow, hb1]
          simp
        simp only [decodeCharBits, refine_interval, if_neg hAnd]
        rw [hstep, hs]
        have := hih false lat lon
        rw [hs] at this
        exact this

/-- Decode replays one encoded character exactly. -/
lemma decodeCharBits_encSteps (c : GeoCoordinate) (e : Bool) (lat lon : ℚ × ℚ) :
    decodeCharBits ((encSteps c 5 e 0 0 lat lon).1 : Int) BITS e lat lon =
      (encSteps c 5 e 0 0 lat lon).2 := by
  have := decodeCharBits_encSteps_aux c 5 0 (by omega) e 0 lat lon (by decide)
    (fun i _ => Nat.zero_testBit i)
  simpa using this

lemma bitStep_inSquare (c : GeoCoordinate) (e : Bool) (bit ch : Nat) (lat lon : ℚ × ℚ)
    (h : inSquare c lat lon) :
    inSquare c (bitStep c e bit ch lat lon).2.1 (bitStep c e bit ch lat lon).2.2 := by
  obtain ⟨h1, h2, h3, h4⟩ := h
  unfold bitStep inSquare
  dsimp only
  split_ifs <;> refine ⟨by dsimp only; linarith, by dsimp only; linarith,
    by dsimp only; linarith, by dsimp only; linarith⟩

lemma encSteps_inSquare (c : GeoCoordinate) :
    ∀ (k : Nat) (e : Bool) (bit ch : Nat) (lat lon : ℚ × ℚ), inSquare c lat lon →
      inSquare c (encSteps c k e bit ch lat lon).2.2.1 (encSteps c k e bit ch lat lon).2.2.2 := by
  intro k
  induction k with
  | zero => intro e bit ch lat lon h; exact h
  | succ m ih =>
    intro e bit ch lat lon h
    simp only [encSteps]
    exact ih (!e) (bit + 1) _ _ _ (bitStep_inSquare c e bit ch lat lon h)

/-- Decoding the character-level encoding of a coordinate keeps the
coordinate inside the decoded intervals. -/
lemma decodeAux_charEnc_inSquare (c : GeoCoordinate) :
    ∀ (n : Nat) (e : Bool) (lat lon : ℚ × ℚ), inSquare c lat lon →
      inSquare c (decodeAux (charEnc c n e lat lon) e lat lon).1
        (decodeAux (charEnc c n e lat lon) e lat lon).2 := by
  intro n
  induction n with
  | zero => intro e lat lon h; exact h
  | succ m ih =>
    intro e lat lon h
    have hch : (encSteps c 5 e 0 0 lat lon).1 < 32 :=
      encSteps_fst_lt c 5 e 0 0 lat lon (by decide)
    simp only [charEnc]
    rw [jsStringAt_base32 _ hch]
    simp only [List.singleton_append, decodeAux, jsStrIndexOf_base32_getD _ hch,
      decodeCharBits_encSteps]
    exact ih (encSteps c 5 e 0 0 lat lon).2.1 (encSteps c 5 e 0 0 lat lon).2.2.1
      (encSteps c 5 e 0 0 lat lon).2.2.2 (encSteps_inSquare c 5 e 0 0 lat lon h)

/-- C1: round-trip soundness.  For a coordinate with latitude in
[-90, 90], longitude in [-180, 180] and any precision ≥ 1, the bounding
box obtained by decoding `hashString c p` (as the `GeoHash` constructor
does) contains the coordinate: both its latitude and its longitude lie
between the box's lower bounds (stored in the field named `northWest`)
and upper bounds (stored in the field named `southEast`). -/
theorem claim_C1_roundtrip_soundness (c : GeoCoordinate) (p : Int)
    (h1 : -90 ≤ c.lat) (h2 : c.lat ≤ 90) (h3 : -180 ≤ c.long) (h4 : c.long ≤ 180)
    (hp : 1 ≤ p) :
    (geoHashOfCoordinate c p).northWest.lat ≤ c.lat ∧
    c.lat ≤ (geoHashOfCoordinate c p).southEast.lat ∧
    (geoHashOfCoordinate c p).northWest.long ≤ c.long ∧
    c.long ≤ (geoHashOfCoordinate c p).southEast.long := by
  have hinv : inSquare c (-90, 90) (-180, 180) := ⟨h1, h2, h3, h4⟩
  have hrt := decodeAux_charEnc_inSquare c p.toNat true (-90, 90) (-180, 180) hinv
  rw [← hashString_eq_charEnc] at hrt
  obtain ⟨a1, a2, a3, a4⟩ := hrt
  exact ⟨a1, a2, a3, a4⟩

theorem claim_C1_roundtrip_soundness_witness :
    ((-90 : ℚ) ≤ 10 ∧ (10 : ℚ) ≤ 90 ∧ (-180 : ℚ) ≤ 20 ∧ (20 : ℚ) ≤ 180 ∧ (1 : Int) ≤ 1) ∧
    ((geoHashOfCoordinate ⟨10, 20⟩ 1).northWest.lat ≤ (GeoCoordinate.mk 10 20).lat ∧
      (GeoCoordinate.mk 10 20).lat ≤ (geoHashOfCoordinate ⟨10, 20⟩ 1).southEast.lat ∧
      (geoHashOfCoordinate ⟨10, 20⟩ 1).northWest.long ≤ (GeoCoordinate.mk 10 20).long ∧
      (GeoCoordinate.mk 10 20).long ≤ (geoHashOfCoordinate ⟨10, 20⟩ 1).southEast.long) :=
  ⟨⟨by norm_num, by norm_num, by norm_num, by norm_num, by norm_num⟩,
    claim_C1_roundtrip_soundness ⟨10, 20⟩ 1 (by norm_num) (by norm_num) (by norm_num)
      (by norm_num) (by norm_num)⟩

/-- C4 evaluation: under the (legal) distance model `distSkew`, from
center `"s"` with distance 44 and `minPointsInRange = 1`, the computed
south extent is 2 but the north extent is 1, and the candidate grid the
filter receives walks only one row south: it is
`["s","e","t","k","7","m"]` and omits `"h"`, the cell two steps south of
center inside the same columns, despite the computed south extent of 2 —
the source bounds the southern row loop by `searchNorth`
(line 346) and never uses `searchSouth` (line 322). -/
theorem claim_C4_south_extent_ignored :
    countHashesUntilDistance distSkew (geoHashOfString ['s']) 5 44 CDir.s 1 = some 2 ∧
    countHashesUntilDistance distSkew (geoHashOfString ['s']) 5 44 CDir.n 1 = some 1 ∧
    (radiusCandidates distSkew (geoHashOfString ['s']) 5 44 1).map
      (fun l => l.map GeoHash.geohash) = some [['s'], ['e'], ['t'], ['k'], ['7'], ['m']] := by
  refine ⟨?_, ?_, ?_⟩ <;> with_unfolding_all decide

/-- C5 counterexample: with the (legal) distance model `distFlat`, center
`"s"`, distance 0 and `minPointsInRange = 2`, the search returns the
empty set — the center cell is generated as a candidate but removed by
the final filter, because only its centroid (1 point < 2) is within
distance 0 of itself. -/
theorem claim_C5_counterexample :
    getAllHashStringsWithinRadius distFlat (geoHashOfString ['s']) 5 0 2 = some [] := by
  with_unfolding_all decide

lemma countAux_le (dist : GeoCoordinate → GeoCoordinate → ℚ) (centroid : GeoCoordinate)
    (distance : ℚ) (d : CDir) (points : Nat) :
    ∀ (fuel : Nat) (hash : List Char) (counter pis r : Nat),
      countAux dist centroid distance d points fuel hash counter pis = some r →
      counter ≤ r := by
  intro fuel
  induction fuel with
  | zero => intro hash counter pis r h; simp [countAux] at h
  | succ f ih =>
    intro hash counter pis r h
    simp only [countAux] at h
    by_cases hcond : pis ≥ points
    · rw [if_pos hcond] at h
      cases hnb : getNeighborAsHashString (hash.length + 1) (.card d) hash with
      | none => rw [hnb] at h; simp at h
      | some hash2 =>
        rw [hnb] at h
        have := ih hash2 (counter + 1) _ r h
        omega
    · rw [if_neg hcond] at h
      simp only [Option.some_inj] at h
      omega

lemma countHashes_pos (dist : GeoCoordinate → GeoCoordinate → ℚ) (self : GeoHash)
    (fuel : Nat) (distance : ℚ) (d : CDir) (sn : Nat)
    (h : countHashesUntilDistance dist self fuel distance d 1 = some sn) : 1 ≤ sn := by
  unfold countHashesUntilDistance at h
  cases fuel with
  | zero => simp [countAux] at h
  | succ f =>
    simp only [countAux] at h
    rw [if_pos (by omega : 5 ≥ 1)] at h
    cases hnb : getNeighborAsHashString (self.geohash.length + 1) (.card d) self.geohash with
    | none => rw [hnb] at h; simp at h
    | some hash2 =>
      rw [hnb] at h
      exact countAux_le dist self.centroid distance d 1 f hash2 1 _ sn h

/-- C5 (amended): for `minPointsInRange = 1`, whenever the search
completes (returns a result — no neighbor-recursion crash and enough
fuel), the center cell's geohash is in the returned set: the first
northern row pushes the center block, and the filter keeps it because its
own centroid is at distance 0 ≤ distance.  (For `minPointsInRange ≥ 2`
the center can be filtered out, see the counterexample.) -/
theorem claim_C5_amended (dist : GeoCoordinate → GeoCoordinate → ℚ) (g : List Char)
    (fuel : Nat) (distance : ℚ) (result : List (List Char))
    (hd : 0 ≤ distance)
    (hzero : dist (geoHashOfString g).centroid (geoHashOfString g).centroid = 0)
    (hrun : getAllHashStringsWithinRadius dist (geoHashOfString g) fuel distance 1
      = some result) :
    g ∈ result := by
  unfold getAllHashStringsWithinRadius at hrun
  rw [Option.map_eq_some'] at hrun
  obtain ⟨hashes, hcand, hres⟩ := hrun
  unfold radiusCandidates at hcand
  simp only [bind, Option.bind_eq_some, pure, Option.some_inj] at hcand
  obtain ⟨sn, hsn, ss, hss, sw, hsw, northPart, hnp, fsr, hfsr, southPart, hsp, hsum⟩ := hcand
  have hsn1 : 1 ≤ sn := countHashes_pos dist _ fuel distance .n sn hsn
  obtain ⟨t, ht⟩ : ∃ t, sn = t + 1 := ⟨sn - 1, by omega⟩
  rw [ht] at hnp
  simp only [rowsLoop] at hnp
  cases hwe : weLoop sw (geoHashOfString g).geohash (geoHashOfString g).geohash with
  | none => rw [hwe] at hnp; simp at hnp
  | some rowBlocks =>
    rw [hwe] at hnp
    cases hnext : getNeighborAsHashString ((geoHashOfString g).geohash.length + 1) (.card .n)
        (geoHashOfString g).geohash with
    | none => rw [hnext] at hnp; simp at hnp
    | some next =>
      rw [hnext] at hnp
      rw [Option.map_eq_some'] at hnp
      obtain ⟨rest, _, hnpeq⟩ := hnp
      have hmem : geoHashOfString g ∈ hashes := by
        rw [← hsum, ← hnpeq, show (geoHashOfString g).geohash = g from rfl]
        simp
      have hkeep : pointsInScopeOf dist (geoHashOfString g).centroid distance
          (geoHashOfString g) ≥ 1 := by
        unfold pointsInScopeOf
        have hmemc : (geoHashOfString g).centroid ∈ getAllCoordinates (geoHashOfString g) := by
          simp [getAllCoordinates]
        have hmemd : (0 : ℚ) ∈ (getAllCoordinates (geoHashOfString g)).map
            (fun o => dist o (geoHashOfString g).centroid) := by
          rw [← hzero]
          exact List.mem_map_of_mem _ hmemc
        have hmemf : (0 : ℚ) ∈ ((getAllCoordinates (geoHashOfString g)).map
            (fun o => dist o (geoHashOfString g).centroid)).filter
              (fun o => o ≤ distance) := by
          rw [List.mem_filter]
          exact ⟨hmemd, by simpa using hd⟩
      
        have := List.length_pos.mpr (List.ne_nil_of_mem hmemf)
        omega
      rw [← hres]
      have hmemfil : geoHashOfString g ∈ hashes.filter
          (fun o => pointsInScopeOf dist (geoHashOfString g).centroid distance o ≥ 1) := by
        rw [List.mem_filter]
        exact ⟨hmem, by simpa using hkeep⟩
      exact List.mem_map_of_mem _ hmemfil

theorem claim_C5_amended_witness :
    ((0 : ℚ) ≤ 0 ∧
      distFlat (geoHashOfString ['s']).centroid (geoHashOfString ['s']).centroid = 0 ∧
      getAllHashStringsWithinRadius distFlat (geoHashOfString ['s']) 5 0 1 = some [['s']]) ∧
    ['s'] ∈ [['s']] :=
  ⟨⟨by norm_num, by with_unfolding_all decide, by with_unfolding_all decide⟩,
    claim_C5_amended distFlat ['s'] 5 0 [['s']] (by norm_num)
      (by with_unfolding_all decide) (by with_unfolding_all decide)⟩
